import Mathlib

/-!
Shallow embedding of the MTGRulesWorker rules parser (src/RulesParser.ts and
src/models.ts) together with the JavaScript string/array primitives it relies
on, and proofs about the claims of the specification.

Conventions of the embedding:
* JavaScript strings are Lean `String`s; the character-level work is done on
  `String.data : List Char`.
* A thrown JavaScript `TypeError` (property access on `undefined`) is embedded
  as `Except.error (JSError.typeError p)` where `p` is the accessed property
  name, which is exactly the information such an error carries.
* `Array.prototype.indexOf`/`findIndex` return `-1` on failure; wherever the
  source immediately stores the result and only ever uses it as an element
  index, `-1` and "out of bounds" are observationally identical, as accessing
  either yields `undefined`.
-/

namespace MTGRules

/-! ## JavaScript string primitives -/

/-- The WhiteSpace/LineTerminator set trimmed by JavaScript
`String.prototype.trim`. -/
def jsWhitespace (c : Char) : Bool :=
  c == ' ' || c == '\t' || c == '\n' || c == '\u000b' || c == '\u000c' ||
  c == '\r' || c == '\u00a0' || c == '\u1680' ||
  (decide ('\u2000' ≤ c) && decide (c ≤ '\u200a')) ||
  c == '\u2028' || c == '\u2029' || c == '\u202f' || c == '\u205f' ||
  c == '\u3000' || c == '\ufeff'

/-- `String.prototype.trim` on the character list. -/
def jsTrimList (cs : List Char) : List Char :=
  ((cs.dropWhile jsWhitespace).reverse.dropWhile jsWhitespace).reverse

/-- `String.prototype.trim`. -/
def jsTrim (s : String) : String :=
  String.mk (jsTrimList s.data)

/-- Does `cs` start with `p` (JS `String.prototype.startsWith`, also the
building block for substring search)? -/
def isPreL : List Char → List Char → Bool
  | [], _ => true
  | _ :: _, [] => false
  | p :: ps, c :: cs => p == c && isPreL ps cs

/-- Does `cs` end with `p` (JS `String.prototype.endsWith`)? -/
def endsWithL (cs p : List Char) : Bool :=
  isPreL p.reverse cs.reverse

/-- Does `cs` contain `p` as a contiguous substring
(JS `String.prototype.includes`)? -/
def containsSub (cs p : List Char) : Bool :=
  match cs with
  | [] => p.isEmpty
  | _ :: rest => isPreL p cs || containsSub rest p

/-- `rulesText.split("\r")` on the character list: the document uses a
carriage return as the line separator. -/
def splitCRList : List Char → List (List Char)
  | [] => [[]]
  | c :: rest =>
    if c = '\r' then [] :: splitCRList rest
    else
      match splitCRList rest with
      | g :: gs => (c :: g) :: gs
      | [] => [[c]]

/-- `rulesText.split("\r")`. -/
def splitCR (s : String) : List String :=
  (splitCRList s.data).map String.mk

/-- `Array.prototype.indexOf(x, fromIndex)` on a list of strings.  A negative
`fromIndex` counts from the end of the array, clamped at `0`; `-1` is
returned when the element does not occur at or after the start position. -/
def jsIndexOfFrom (l : List String) (x : String) (fromIdx : Int) : Int :=
  let k : Nat := (if fromIdx < 0 then max ((l.length : Int) + fromIdx) 0 else fromIdx).toNat
  match (l.drop k).findIdx? (fun a => a = x) with
  | some i => ((k + i : Nat) : Int)
  | none => -1

/-- `Array.prototype.indexOf(x)`. -/
def jsIndexOf (l : List String) (x : String) : Int :=
  jsIndexOfFrom l x 0

/-- `Array.prototype.findIndex`. -/
def jsFindIndex (l : List String) (p : String → Bool) : Int :=
  match l.findIdx? p with
  | some i => (i : Int)
  | none => -1

/-! ## Data model (src/models.ts) -/

/-- A lettered clause such as `100.1a`, the leaf level of the hierarchy. -/
structure Subrule where
  id : String
  rule : String
deriving Repr, DecidableEq

/-- A numbered rule such as `100.1`. -/
structure Rule where
  id : String
  rule : String
  subrules : List Subrule
deriving Repr, DecidableEq

/-- A numbered section such as `100. General`. -/
structure Subcategory where
  id : String
  title : String
  rules : List Rule
deriving Repr, DecidableEq

/-- A top-level section such as `1. Game Concepts`. -/
structure Category where
  id : String
  title : String
  subcategories : List Subcategory
deriving Repr, DecidableEq

/-- A glossary entry: a term and its definition paragraphs. -/
structure GlossaryTerm where
  term : String
  meanings : List String
deriving Repr, DecidableEq

/-- The composed document. -/
structure RulesObject where
  rules : List Category
  glossary : List GlossaryTerm
  effectiveDate : Int
deriving Repr, DecidableEq

/-- The information carried by a thrown JavaScript `TypeError` caused by
reading a property of `undefined`: the name of the property read. -/
inductive JSError where
  | typeError (prop : String)
deriving Repr, DecidableEq

/-- The message text of the embedded `TypeError` (the V8 message, with the
property name interpolated). -/
def jsErrorText : JSError → String
  | .typeError p => "Cannot read properties of undefined (reading " ++ p ++ ")"

deriving instance DecidableEq for Except

/-! ## The four line patterns of `parseRules`

The source classifies each trimmed line with four regular expressions:

* category:    `^(\d)\.((?: (?:[A-Z][a-z,]+|of|a|and))+)$`
* subcategory: `^(\d\d+)\.((?: (?:[A-Z][a-z]+|of|a))+)$`
* rule:        `^(\d\d+\.\d)\. (.+)$`
* subrule:     `^(\d\d+\.\d[a-z]) (.+)$`

They are modelled as total functions returning the two capture groups.  The
title tails `(?: tok)+` are sequences of single-space separated tokens, where
a token is drawn from alternatives that contain no space; since the matches
are anchored at both ends, the regex accepts exactly the strings consisting
of one or more repetitions of a space followed by a full token, which is what
`spaceToks` decides, scanning token characters up to the next space.  The
digit groups `\d\d+` are greedy and followed by a non-digit, so only the
maximal digit prefix can match. `.` in JavaScript matches anything except the
four line terminators. -/

/-- `.` of a JavaScript regex: any character except a line terminator. -/
def notLineTerm (c : Char) : Bool :=
  !(c == '\n' || c == '\r' || c == '\u2028' || c == '\u2029')

/-- Is `c` a lowercase ASCII letter or a comma (the class `[a-z,]`)? -/
def lowerComma (c : Char) : Bool :=
  c.isLower || c == ','

/-- One alternative of the category title: `[A-Z][a-z,]+|of|a|and`. -/
def catTok (t : List Char) : Bool :=
  (match t with
   | c :: d :: rest => c.isUpper && lowerComma d && rest.all lowerComma
   | _ => false) ||
  t == "of".data || t == "a".data || t == "and".data

/-- One alternative of the subcategory title: `[A-Z][a-z]+|of|a`. -/
def subcatTok (t : List Char) : Bool :=
  (match t with
   | c :: d :: rest => c.isUpper && d.isLower && rest.all Char.isLower
   | _ => false) ||
  t == "of".data || t == "a".data

/-- Scan token characters (`acc` holds the current token reversed), validate
each completed token with `valid`. -/
def spTokens (valid : List Char → Bool) (acc : List Char) : List Char → Bool
  | [] => valid acc.reverse
  | c :: rest =>
    if c == ' ' then valid acc.reverse && spTokens valid [] rest
    else spTokens valid (c :: acc) rest

/-- Does `cs` match `(?: tok)+` anchored on both sides, with `valid` deciding
the token alternatives? -/
def spaceToks (valid : List Char → Bool) : List Char → Bool
  | [] => false
  | c :: rest => c == ' ' && spTokens valid [] rest

/-- The category pattern `^(\d)\.((?: (?:[A-Z][a-z,]+|of|a|and))+)$`; returns
the captures (id digits, raw title group). -/
def catMatch (cs : List Char) : Option (List Char × List Char) :=
  match cs with
  | d :: c :: rest =>
    if d.isDigit && c == '.' && spaceToks catTok rest then
      some ([d], rest)
    else none
  | _ => none

/-- The subcategory pattern `^(\d\d+)\.((?: (?:[A-Z][a-z]+|of|a))+)$`. -/
def subcatMatch (cs : List Char) : Option (List Char × List Char) :=
  let ds := cs.takeWhile Char.isDigit
  match cs.dropWhile Char.isDigit with
  | c :: rest =>
    if 2 ≤ ds.length && c == '.' && spaceToks subcatTok rest then
      some (ds, rest)
    else none
  | [] => none

/-- The rule pattern `^(\d\d+\.\d)\. (.+)$`. -/
def ruleMatch (cs : List Char) : Option (List Char × List Char) :=
  let ds := cs.takeWhile Char.isDigit
  match cs.dropWhile Char.isDigit with
  | c1 :: d2 :: c2 :: c3 :: text =>
    if 2 ≤ ds.length && c1 == '.' && d2.isDigit && c2 == '.' && c3 == ' ' &&
        !text.isEmpty && text.all notLineTerm then
      some (ds ++ ['.', d2], text)
    else none
  | _ => none

/-- The subrule pattern `^(\d\d+\.\d[a-z]) (.+)$`. -/
def subruleMatch (cs : List Char) : Option (List Char × List Char) :=
  let ds := cs.takeWhile Char.isDigit
  match cs.dropWhile Char.isDigit with
  | c1 :: d2 :: a :: c3 :: text =>
    if 2 ≤ ds.length && c1 == '.' && d2.isDigit && a.isLower && c3 == ' ' &&
        !text.isEmpty && text.all notLineTerm then
      some (ds ++ ['.', d2, a], text)
    else none
  | _ => none

/-- The level a line belongs to. -/
inductive LineClass where
  | category
  | subcategory
  | rule
  | subrule
deriving Repr, DecidableEq

/-- The classification of a trimmed line, testing the patterns in the
priority order of the source: category, subcategory, rule, subrule. -/
def classify (cs : List Char) : Option LineClass :=
  match catMatch cs with
  | some _ => some .category
  | none =>
    match subcatMatch cs with
    | some _ => some .subcategory
    | none =>
      match ruleMatch cs with
      | some _ => some .rule
      | none =>
        match subruleMatch cs with
        | some _ => some .subrule
        | none => none

/-- The same classification testing the patterns in the reverse order;
used to state that the priority order is irrelevant. -/
def classifyRev (cs : List Char) : Option LineClass :=
  match subruleMatch cs with
  | some _ => some .subrule
  | none =>
    match ruleMatch cs with
    | some _ => some .rule
    | none =>
      match subcatMatch cs with
      | some _ => some .subcategory
      | none =>
        match catMatch cs with
        | some _ => some .category
        | none => none

/-! ## `parseRules` -/

/-- The mutable state of `parseRules`: the accumulated array and the three
cursor indices (JavaScript `let` variables, initially `0`). -/
structure RulesParserState where
  rulesArr : List Category
  lastCategoryIndex : Nat
  lastSubcategoryIndex : Nat
  lastRuleIndex : Nat
deriving Repr, DecidableEq

/-- The category branch of the `forEach` body: push unless a category with
this id exists, then move the cursor to the id's index. -/
def categoryStep (st : RulesParserState) (g1 g2 : List Char) : RulesParserState :=
  let id := String.mk g1
  let title := jsTrim (String.mk g2)
  let categoryExists := st.rulesArr.any (fun cat => cat.id == id)
  let rulesArr' :=
    if categoryExists then st.rulesArr
    else st.rulesArr ++ [{ id := id, title := title, subcategories := [] }]
  { st with
    rulesArr := rulesArr',
    lastCategoryIndex := rulesArr'.findIdx (fun cat => cat.id == id) }

/-- The subcategory branch: reads `rulesArr[lastCategoryIndex].subcategories`
(throwing if the element is `undefined`), pushes unless the id exists, moves
the subcategory cursor. -/
def subcategoryStep (st : RulesParserState) (g1 g2 : List Char) :
    Except JSError RulesParserState :=
  let id := String.mk g1
  let title := jsTrim (String.mk g2)
  match st.rulesArr[st.lastCategoryIndex]? with
  | none => .error (.typeError "subcategories")
  | some cat =>
    let subcategoryExists := cat.subcategories.any (fun s => s.id == id)
    let subs' :=
      if subcategoryExists then cat.subcategories
      else cat.subcategories ++ [{ id := id, title := title, rules := [] }]
    .ok { st with
          rulesArr := st.rulesArr.set st.lastCategoryIndex { cat with subcategories := subs' },
          lastSubcategoryIndex := subs'.findIdx (fun s => s.id == id) }

/-- The rule branch: pushes unconditionally into
`rulesArr[lastCategoryIndex].subcategories[lastSubcategoryIndex].rules`,
throwing at the first `undefined` along that path, then sets the rule cursor
to the first index carrying the id. -/
def ruleStep (st : RulesParserState) (g1 g2 : List Char) :
    Except JSError RulesParserState :=
  let id := String.mk g1
  let ruleText := String.mk g2
  match st.rulesArr[st.lastCategoryIndex]? with
  | none => .error (.typeError "subcategories")
  | some cat =>
    match cat.subcategories[st.lastSubcategoryIndex]? with
    | none => .error (.typeError "rules")
    | some subcat =>
      let rules' := subcat.rules ++ [{ id := id, rule := ruleText, subrules := [] }]
      let subcat' := { subcat with rules := rules' }
      let cat' := { cat with subcategories := cat.subcategories.set st.lastSubcategoryIndex subcat' }
      .ok { st with
            rulesArr := st.rulesArr.set st.lastCategoryIndex cat',
            lastRuleIndex := rules'.findIdx (fun r => r.id == id) }

/-- The subrule branch: pushes unconditionally into the rules cursor's
`subrules`, throwing at the first `undefined` along the path. -/
def subruleStep (st : RulesParserState) (g1 g2 : List Char) :
    Except JSError RulesParserState :=
  let id := String.mk g1
  let ruleText := String.mk g2
  match st.rulesArr[st.lastCategoryIndex]? with
  | none => .error (.typeError "subcategories")
  | some cat =>
    match cat.subcategories[st.lastSubcategoryIndex]? with
    | none => .error (.typeError "rules")
    | some subcat =>
      match subcat.rules[st.lastRuleIndex]? with
      | none => .error (.typeError "subrules")
      | some r =>
        let r' := { r with subrules := r.subrules ++ [{ id := id, rule := ruleText }] }
        let subcat' := { subcat with rules := subcat.rules.set st.lastRuleIndex r' }
        let cat' := { cat with subcategories := cat.subcategories.set st.lastSubcategoryIndex subcat' }
        .ok { st with rulesArr := st.rulesArr.set st.lastCategoryIndex cat' }

/-- One iteration of the `forEach` body of `parseRules`: skip the empty line,
trim, and dispatch on the first matching pattern; unmatched lines are
ignored. -/
def parseRulesStep (st : RulesParserState) (line : String) :
    Except JSError RulesParserState :=
  if line = "" then .ok st
  else
    let trimmed := jsTrim line
    match catMatch trimmed.data with
    | some (g1, g2) => .ok (categoryStep st g1 g2)
    | none =>
      match subcatMatch trimmed.data with
      | some (g1, g2) => subcategoryStep st g1 g2
      | none =>
        match ruleMatch trimmed.data with
        | some (g1, g2) => ruleStep st g1 g2
        | none =>
          match subruleMatch trimmed.data with
          | some (g1, g2) => subruleStep st g1 g2
          | none => .ok st

/-- `parseRules`: fold the body over the lines starting from the empty array
and zero cursors; a thrown `TypeError` aborts the whole traversal. -/
def parseRules (lines : List String) : Except JSError (List Category) :=
  (lines.foldlM parseRulesStep ⟨[], 0, 0, 0⟩).map (fun st => st.rulesArr)

/-! ## `parseGlossary` -/

/-- The new-term test of `parseGlossary`: the line does not end with a
period, does not end with a closing typographic quotation mark, and does not
contain the substring `See rule`. -/
def isTermLine (cleanLine : String) : Bool :=
  !endsWithL cleanLine.data ".".data &&
  !endsWithL cleanLine.data "”".data &&
  !containsSub cleanLine.data "See rule".data

/-- The state of `parseGlossary`: the accumulated terms and the current-term
index. -/
structure GlossParserState where
  termsArr : List GlossaryTerm
  lastTermIndex : Nat
deriving Repr, DecidableEq

/-- One iteration of the `forEach` body of `parseGlossary`. -/
def glossaryStep (st : GlossParserState) (line : String) :
    Except JSError GlossParserState :=
  let cleanLine := jsTrim line
  if cleanLine = "" then .ok st
  else if isTermLine cleanLine then
    let termsArr' := st.termsArr ++ [{ term := cleanLine, meanings := [] }]
    .ok { termsArr := termsArr',
          lastTermIndex := termsArr'.findIdx (fun t => t.term == cleanLine) }
  else
    match st.termsArr[st.lastTermIndex]? with
    | none => .error (.typeError "meanings")
    | some t =>
      .ok { termsArr := st.termsArr.set st.lastTermIndex
              { t with meanings := t.meanings ++ [cleanLine] },
            lastTermIndex := st.lastTermIndex }

/-- `parseGlossary`. -/
def parseGlossary (lines : List String) : Except JSError (List GlossaryTerm) :=
  (lines.foldlM glossaryStep ⟨[], 0⟩).map (fun st => st.termsArr)

/-! ## Section extraction -/

/-- `getRules`: split on carriage returns, drop everything up to and
including the line after the first line equal to `Credits` (when that line is
absent `findIndex` yields `-1`, so exactly one line is dropped), and parse
the remainder.  `splice(0, n)` with `n ≥ 0` removes the first `n` elements. -/
def getRules (rulesText : String) : Except JSError (List Category) :=
  let lines := splitCR rulesText
  let startingLine : Int := jsFindIndex lines (fun line => line = "Credits") + 2
  parseRules (lines.drop startingLine.toNat)

/-- `splice(e, lines.length - e)` for `e` produced by `indexOf`: for
`e ≥ 0` it removes the elements from `e` on; for `e = -1` the start is
clamped to the last element and exactly that element is removed. -/
def spliceToEnd (l : List String) (e : Int) : List String :=
  if e < 0 then l.dropLast else l.take e.toNat

/-- `getGlossary`: locate the `\nGlossary` heading, search again *from that
index* (inclusive, as `indexOf` is), drop through the found heading, cut at
the next `\nCredits`, and parse.  When the heading is absent both searches
yield `-1` and nothing is dropped; when the credits marker is absent the
final `splice(-1, …)` removes the last line. -/
def getGlossary (rulesText : String) : Except JSError (List GlossaryTerm) :=
  let lines := splitCR rulesText
  let glossaryInTableOfContents := jsIndexOf lines "\nGlossary"
  let startingLine : Int := jsIndexOfFrom lines "\nGlossary" glossaryInTableOfContents + 1
  let lines2 := lines.drop startingLine.toNat
  let endingLine := jsIndexOf lines2 "\nCredits"
  parseGlossary (spliceToEnd lines2 endingLine)

/-! ## Effective date -/

/-- The literal part of the effective-date pattern.  The source builds the
regex from the string `'These rules are effective as of (.+)\.'`, in which
`\.` is just `.` (the escape is consumed by the string literal), so the
trailing token matches *any* non-line-terminator character. -/
def effDateLit : List Char := "These rules are effective as of ".data

/-- `dateLine.match(regex)` for the effective-date regex: the leftmost
position where the literal is followed by at least two non-line-terminator
characters matches; the greedy `(.+)` captures that run up to its last
character, which is consumed by the trailing `.` token. -/
def matchEffDate : List Char → Option (List Char)
  | [] => none
  | c :: rest =>
    let t := ((c :: rest).drop effDateLit.length).takeWhile notLineTerm
    if isPreL effDateLit (c :: rest) && decide (2 ≤ t.length) then
      some t.dropLast
    else matchEffDate rest

/-- Days from the civil epoch 1970-01-01 to year `y`, month `m`, day `d`
(proleptic Gregorian); the standard era-based conversion. -/
def daysFromCivil (y m d : Int) : Int :=
  let y' := if m ≤ 2 then y - 1 else y
  let era := (if 0 ≤ y' then y' else y' - 399) / 400
  let yoe := y' - era * 400
  let mp := (m + 9) % 12
  let doy := (153 * mp + 2) / 5 + d - 1
  let doe := yoe * 365 + yoe / 4 - yoe / 100 + doy
  era * 146097 + doe - 719468

/-- Is `y` a Gregorian leap year? -/
def isLeapYear (y : Int) : Bool :=
  (y % 4 == 0 && y % 100 != 0) || y % 400 == 0

/-- Days in month `m` of year `y`. -/
def daysInMonth (m : Nat) (y : Int) : Nat :=
  if m = 2 then (if isLeapYear y then 29 else 28)
  else if m = 4 || m = 6 || m = 9 || m = 11 then 30
  else 31

/-- The English month names recognised for the date phrase. -/
def monthTable : List (Nat × String) :=
  [(1, "January"), (2, "February"), (3, "March"), (4, "April"),
   (5, "May"), (6, "June"), (7, "July"), (8, "August"),
   (9, "September"), (10, "October"), (11, "November"), (12, "December")]

/-- Find the month whose name followed by a space starts `cs`; return its
number and the remainder. -/
def findMonth : List (Nat × String) → List Char → Option (Nat × List Char)
  | [], _ => none
  | (m, nm) :: rest, cs =>
    if isPreL (nm.data ++ [' ']) cs then some (m, cs.drop (nm.data.length + 1))
    else findMonth rest cs

/-- The decimal value of a digit run. -/
def digitsToNat (ds : List Char) : Nat :=
  ds.foldl (fun n c => n * 10 + (c.toNat - '0'.toNat)) 0

/-- Model of the host runtime's `Date.parse` (V8 with the UTC timezone of the
deployment environment), restricted to the `<Month> <day>, <year>` phrase the
effective-date line produces: it denotes midnight UTC of that calendar day in
milliseconds since the Unix epoch.  Any other input conservatively denotes
`NaN`, embedded as `none`. -/
def jsDateParse (s : String) : Option Int :=
  match findMonth monthTable s.data with
  | none => none
  | some (m, r1) =>
    match r1.takeWhile Char.isDigit, r1.dropWhile Char.isDigit with
    | [], _ => none
    | dds, r2 =>
      if dds.length ≤ 2 then
        match r2 with
        | ',' :: ' ' :: r3 =>
          match r3.takeWhile Char.isDigit, r3.dropWhile Char.isDigit with
          | yds, [] =>
            if yds.length = 4 then
              let d := digitsToNat dds
              let y : Int := (digitsToNat yds : Int)
              if 1 ≤ d && d ≤ daysInMonth m y then
                some (daysFromCivil y (m : Int) (d : Int) * 86400000)
              else none
            else none
          | _, _ => none
        | _ => none
      else none

/-- `getEffectiveDate`: read the third carriage-return-separated line
(throwing the `undefined.match` `TypeError` when the document is shorter),
match the effective-date pattern and parse the captured phrase; a failed
match yields `undefined` (`none`). -/
def getEffectiveDate (rulesText : String) : Except JSError (Option Int) :=
  match (splitCR rulesText)[2]? with
  | none => .error (.typeError "match")
  | some dateLine =>
    match matchEffDate dateLine.data with
    | some capture => .ok (jsDateParse (String.mk capture))
    | none => .ok none

/-! ## Composition (`getRulesObject`)

The network fetch belongs to the excluded I/O layer; the composition over a
fetched text is embedded.  The `if (!rulesText)` guard treats the empty
string as falsy; `await` sequencing propagates a thrown error of any of the
three extractors; `if (effectiveDate)` is a JavaScript truthiness test, so
both `undefined`/`NaN` (embedded `none`) and the timestamp `0` produce no
document. -/

def getRulesObjectOf (rulesText : String) : Except JSError (Option RulesObject) :=
  if rulesText = "" then .ok none
  else
    match getRules rulesText with
    | .error e => .error e
    | .ok rules =>
      match getGlossary rulesText with
      | .error e => .error e
      | .ok glossary =>
        match getEffectiveDate rulesText with
        | .error e => .error e
        | .ok none => .ok none
        | .ok (some v) =>
          if v = 0 then .ok none
          else .ok (some { rules := rules, glossary := glossary, effectiveDate := v })

/-! ## Generic helper lemmas -/

theorem except_bind_ok {σ τ : Type} (s : σ) (f : σ → Except JSError τ) :
    (Except.ok s >>= f) = f s := rfl

theorem except_bind_error {σ τ : Type} (e : JSError) (f : σ → Except JSError τ) :
    ((Except.error e : Except JSError σ) >>= f) = Except.error e := rfl

/-- A property preserved by every successful step of an `Except`-valued fold
holds of the final state. -/
theorem foldlM_except_inv {σ α : Type} {P : σ → Prop} (f : σ → α → Except JSError σ)
    (hstep : ∀ s a s', f s a = .ok s' → P s → P s') :
    ∀ (ls : List α) (s s' : σ), P s → ls.foldlM f s = .ok s' → P s'
  | [], s, s', hP, h => by
      simp only [List.foldlM_nil] at h
      cases h
      exact hP
  | a :: ls, s, s', hP, h => by
      rw [List.foldlM_cons] at h
      cases hfa : f s a with
      | error e => rw [hfa, except_bind_error] at h; cases h
      | ok s₁ =>
          rw [hfa, except_bind_ok] at h
          exact foldlM_except_inv f hstep ls s₁ s' (hstep s a s₁ hfa hP) h

/-- Steps that leave the state unchanged can be dropped from the front of a
fold. -/
theorem foldlM_skip {σ α : Type} (f : σ → α → Except JSError σ) (s : σ) :
    ∀ (pre rest : List α), (∀ p ∈ pre, f s p = .ok s) →
      (pre ++ rest).foldlM f s = rest.foldlM f s
  | [], rest, _ => by simp
  | p :: pre, rest, h => by
      rw [List.cons_append, List.foldlM_cons, h p (by simp), except_bind_ok]
      exact foldlM_skip f s pre rest (fun q hq => h q (by simp [hq]))

/-- Setting an index to the element already there changes nothing. -/
theorem set_self {α : Type} : ∀ (l : List α) (n : Nat) (a : α), l[n]? = some a → l.set n a = l
  | [], n, a, h => by cases h
  | b :: l, 0, a, h => by
      simp at h
      simp [h]
  | b :: l, n + 1, a, h => by
      simp at h
      simp [set_self l n a h]

/-- What `findIdx` finds is the first index satisfying the predicate. -/
theorem findIdx_spec {α : Type} (p : α → Bool) :
    ∀ (l : List α), l.findIdx p < l.length →
      ∃ a, l[l.findIdx p]? = some a ∧ p a = true ∧
        ∀ k b, k < l.findIdx p → l[k]? = some b → p b = false
  | [], h => by cases h
  | a :: l, h => by
      by_cases hp : p a
      · refine ⟨a, ?_, hp, ?_⟩
        · simp [List.findIdx_cons, hp]
        · intro k b hk _
          rw [List.findIdx_cons, hp] at hk
          cases hk
      · rw [List.findIdx_cons] at h ⊢
        simp only [hp, cond_false] at h ⊢
        rw [List.length_cons] at h
        have h' : l.findIdx p < l.length := by omega
        obtain ⟨a', ha', hpa', hfirst⟩ := findIdx_spec p l h'
        refine ⟨a', by simpa using ha', hpa', ?_⟩
        intro k b hk hb
        cases k with
        | zero =>
            simp at hb
            cases hb
            simpa using hp
        | succ k =>
            have : k < l.findIdx p := by omega
            exact hfirst k b this (by simpa using hb)

/-! ## Classification and orphan-line lemmas -/

theorem classify_eq_none_iff (cs : List Char) :
    classify cs = none ↔
      catMatch cs = none ∧ subcatMatch cs = none ∧ ruleMatch cs = none ∧
        subruleMatch cs = none := by
  unfold classify
  cases h1 : catMatch cs <;> cases h2 : subcatMatch cs <;>
    cases h3 : ruleMatch cs <;> cases h4 : subruleMatch cs <;> simp

/-- A line that is empty, or whose trimmed text matches no pattern, leaves
the `parseRules` state untouched. -/
theorem parseRulesStep_noise (st : RulesParserState) (line : String)
    (h : line = "" ∨ classify (jsTrim line).data = none) :
    parseRulesStep st line = .ok st := by
  by_cases hl : line = ""
  · simp [parseRulesStep, hl]
  · rcases h with h | h
    · exact absurd h hl
    · obtain ⟨h1, h2, h3, h4⟩ := (classify_eq_none_iff _).1 h
      simp [parseRulesStep, hl, h1, h2, h3, h4]

/-- On the initial state, a subcategory, rule, or subrule line throws the
`TypeError` caused by indexing the empty `rulesArr`. -/
theorem parseRulesStep_orphan (st : RulesParserState) (l : String)
    (hA : st.rulesArr = []) (hne : l ≠ "")
    (h : classify (jsTrim l).data = some .subcategory ∨
         classify (jsTrim l).data = some .rule ∨
         classify (jsTrim l).data = some .subrule) :
    parseRulesStep st l = .error (.typeError "subcategories") := by
  unfold parseRulesStep
  rw [if_neg hne]
  cases h1 : catMatch (jsTrim l).data with
  | some v => rcases h with h | h | h <;> simp [classify, h1] at h
  | none =>
    cases h2 : subcatMatch (jsTrim l).data with
    | some v =>
        obtain ⟨g1, g2⟩ := v
        simp [h1, h2, subcategoryStep, hA]
    | none =>
      cases h3 : ruleMatch (jsTrim l).data with
      | some v =>
          obtain ⟨g1, g2⟩ := v
          simp [h1, h2, h3, ruleStep, hA]
      | none =>
        cases h4 : subruleMatch (jsTrim l).data with
        | some v =>
            obtain ⟨g1, g2⟩ := v
            simp [h1, h2, h3, h4, subruleStep, hA]
        | none => rcases h with h | h | h <;> simp [classify, h1, h2, h3, h4] at h

/-- A blank glossary line leaves the state untouched. -/
theorem glossaryStep_blank (st : GlossParserState) (line : String)
    (h : jsTrim line = "") : glossaryStep st line = .ok st := by
  simp [glossaryStep, h]

/-- On the initial state, a continuation line throws the `TypeError` caused
by indexing the empty `termsArr`. -/
theorem glossaryStep_orphan (st : GlossParserState) (l : String)
    (hA : st.termsArr = []) (hne : jsTrim l ≠ "")
    (h : isTermLine (jsTrim l) = false) :
    glossaryStep st l = .error (.typeError "meanings") := by
  simp [glossaryStep, hne, h, hA]

/-! ## Mutual exclusivity of the four line patterns -/

theorem spaceToks_head {valid : List Char → Bool} {r : List Char}
    (h : spaceToks valid r = true) : ∃ r', r = ' ' :: r' := by
  cases r with
  | nil => simp [spaceToks] at h
  | cons c rest =>
      simp only [spaceToks, Bool.and_eq_true, beq_iff_eq] at h
      exact ⟨rest, by rw [h.1]⟩

/-- A category line has exactly one leading digit. -/
theorem catMatch_digits {cs : List Char} {v : List Char × List Char}
    (h : catMatch cs = some v) : (cs.takeWhile Char.isDigit).length = 1 := by
  rcases cs with _ | ⟨d, _ | ⟨c, rest⟩⟩
  · simp [catMatch] at h
  · simp [catMatch] at h
  · simp only [catMatch, Option.ite_none_right_eq_some, Bool.and_eq_true, beq_iff_eq] at h
    obtain ⟨⟨⟨hd, hdot⟩, -⟩, -⟩ := h
    have hnd : Char.isDigit '.' = false := by decide
    rw [hdot]
    simp [List.takeWhile_cons, hd, hnd]

/-- A subcategory line has at least two leading digits and, after them, a
period followed by a space. -/
theorem subcatMatch_shape {cs : List Char} {v : List Char × List Char}
    (h : subcatMatch cs = some v) :
    2 ≤ (cs.takeWhile Char.isDigit).length ∧
      ∃ rest, cs.dropWhile Char.isDigit = '.' :: ' ' :: rest := by
  cases hdw : cs.dropWhile Char.isDigit with
  | nil => simp [subcatMatch, hdw] at h
  | cons c rest =>
      simp only [subcatMatch, hdw, Option.ite_none_right_eq_some, Bool.and_eq_true,
        beq_iff_eq, decide_eq_true_eq] at h
      obtain ⟨⟨⟨hlen, hdot⟩, hsp⟩, -⟩ := h
      obtain ⟨r', hr⟩ := spaceToks_head hsp
      exact ⟨hlen, r', by rw [hdot, hr]⟩

/-- A rule line has at least two leading digits and, after them, a period, a
digit, a period and a space. -/
theorem ruleMatch_shape {cs : List Char} {v : List Char × List Char}
    (h : ruleMatch cs = some v) :
    2 ≤ (cs.takeWhile Char.isDigit).length ∧
      ∃ d2 text, cs.dropWhile Char.isDigit = '.' :: d2 :: '.' :: ' ' :: text ∧
        d2.isDigit = true := by
  rcases hdw : cs.dropWhile Char.isDigit with _ | ⟨c1, _ | ⟨d2, _ | ⟨c2, _ | ⟨c3, text⟩⟩⟩⟩
  · simp [ruleMatch, hdw] at h
  · simp [ruleMatch, hdw] at h
  · simp [ruleMatch, hdw] at h
  · simp [ruleMatch, hdw] at h
  · simp only [ruleMatch, hdw, Option.ite_none_right_eq_some, Bool.and_eq_true,
      beq_iff_eq, decide_eq_true_eq] at h
    obtain ⟨⟨⟨⟨⟨⟨⟨hlen, h1⟩, h2⟩, h3⟩, h4⟩, -⟩, -⟩, -⟩ := h
    exact ⟨hlen, d2, text, by rw [h1, h3, h4], h2⟩

/-- A subrule line has at least two leading digits and, after them, a period,
a digit, a lowercase letter and a space. -/
theorem subruleMatch_shape {cs : List Char} {v : List Char × List Char}
    (h : subruleMatch cs = some v) :
    2 ≤ (cs.takeWhile Char.isDigit).length ∧
      ∃ d2 a text, cs.dropWhile Char.isDigit = '.' :: d2 :: a :: ' ' :: text ∧
        d2.isDigit = true ∧ a.isLower = true := by
  rcases hdw : cs.dropWhile Char.isDigit with _ | ⟨c1, _ | ⟨d2, _ | ⟨a, _ | ⟨c3, text⟩⟩⟩⟩
  · simp [subruleMatch, hdw] at h
  · simp [subruleMatch, hdw] at h
  · simp [subruleMatch, hdw] at h
  · simp [subruleMatch, hdw] at h
  · simp only [subruleMatch, hdw, Option.ite_none_right_eq_some, Bool.and_eq_true,
      beq_iff_eq, decide_eq_true_eq] at h
    obtain ⟨⟨⟨⟨⟨⟨⟨hlen, h1⟩, h2⟩, h3⟩, h4⟩, -⟩, -⟩, -⟩ := h
    exact ⟨hlen, d2, a, text, by rw [h1, h4], h2, h3⟩

/-- A category match excludes the three other patterns. -/
theorem catMatch_excl {cs : List Char} {v : List Char × List Char}
    (h : catMatch cs = some v) :
    subcatMatch cs = none ∧ ruleMatch cs = none ∧ subruleMatch cs = none := by
  have h1 := catMatch_digits h
  refine ⟨?_, ?_, ?_⟩
  · cases hm : subcatMatch cs with
    | none => rfl
    | some w => have := (subcatMatch_shape hm).1; omega
  · cases hm : ruleMatch cs with
    | none => rfl
    | some w => have := (ruleMatch_shape hm).1; omega
  · cases hm : subruleMatch cs with
    | none => rfl
    | some w => have := (subruleMatch_shape hm).1; omega

/-- A subcategory match excludes the rule and subrule patterns. -/
theorem subcatMatch_excl {cs : List Char} {v : List Char × List Char}
    (h : subcatMatch cs = some v) :
    ruleMatch cs = none ∧ subruleMatch cs = none := by
  obtain ⟨-, rest, hdw⟩ := subcatMatch_shape h
  constructor
  · cases hm : ruleMatch cs with
    | none => rfl
    | some w =>
        obtain ⟨-, d2, text, hdw', hd2⟩ := ruleMatch_shape hm
        rw [hdw] at hdw'
        simp only [List.cons.injEq] at hdw'
        obtain ⟨-, h2, -⟩ := hdw'
        rw [← h2] at hd2
        exact absurd hd2 (by decide)
  · cases hm : subruleMatch cs with
    | none => rfl
    | some w =>
        obtain ⟨-, d2, a, text, hdw', hd2, -⟩ := subruleMatch_shape hm
        rw [hdw] at hdw'
        simp only [List.cons.injEq] at hdw'
        obtain ⟨-, h2, -⟩ := hdw'
        rw [← h2] at hd2
        exact absurd hd2 (by decide)

/-- A rule match excludes the subrule pattern. -/
theorem ruleMatch_excl {cs : List Char} {v : List Char × List Char}
    (h : ruleMatch cs = some v) : subruleMatch cs = none := by
  obtain ⟨-, d2, text, hdw, -⟩ := ruleMatch_shape h
  cases hm : subruleMatch cs with
  | none => rfl
  | some w =>
      obtain ⟨-, d2', a, text', hdw', -, ha⟩ := subruleMatch_shape hm
      rw [hdw] at hdw'
      simp only [List.cons.injEq] at hdw'
      obtain ⟨-, -, h2, -⟩ := hdw'
      rw [← h2] at ha
      exact absurd ha (by decide)

/-- How many of the four patterns accept the line. -/
def matchCount (cs : List Char) : Nat :=
  (if (catMatch cs).isSome then 1 else 0) +
  (if (subcatMatch cs).isSome then 1 else 0) +
  (if (ruleMatch cs).isSome then 1 else 0) +
  (if (subruleMatch cs).isSome then 1 else 0)

/-! ## Sibling-id uniqueness invariant of `parseRules` -/

/-- Ids are pairwise distinct in the category list and in every category's
subcategory list. -/
def SibIdsOK (arr : List Category) : Prop :=
  (arr.map fun c => c.id).Nodup ∧ ∀ c ∈ arr, (c.subcategories.map fun s => s.id).Nodup

theorem categoryStep_rulesArr (st : RulesParserState) (g1 g2 : List Char) :
    (categoryStep st g1 g2).rulesArr =
      if st.rulesArr.any (fun cat => cat.id == String.mk g1) then st.rulesArr
      else st.rulesArr ++
        [{ id := String.mk g1, title := jsTrim (String.mk g2), subcategories := [] }] := rfl

/-- Appending a fresh id keeps the id list duplicate-free. -/
theorem nodup_append_fresh {m : List String} {x : String}
    (h1 : m.Nodup) (hx : x ∉ m) : (m ++ [x]).Nodup := by
  refine List.Nodup.append h1 (by simp) ?_
  intro a ham hain
  simp only [List.mem_singleton] at hain
  subst hain
  exact hx ham

theorem categoryStep_sib (st : RulesParserState) (g1 g2 : List Char)
    (hs : SibIdsOK st.rulesArr) : SibIdsOK (categoryStep st g1 g2).rulesArr := by
  obtain ⟨h1, h2⟩ := hs
  rw [SibIdsOK, categoryStep_rulesArr]
  cases hex : st.rulesArr.any (fun cat => cat.id == String.mk g1) with
  | true => simpa using ⟨h1, h2⟩
  | false =>
      simp only [Bool.false_eq_true, if_false]
      have hnotmem : String.mk g1 ∉ st.rulesArr.map (fun c => c.id) := by
        intro hmem
        obtain ⟨c, hc, hcid⟩ := List.mem_map.mp hmem
        have := List.any_eq_false.mp hex c hc
        simp only [beq_iff_eq] at this
        exact this hcid
      constructor
      · rw [List.map_append]
        exact nodup_append_fresh h1 hnotmem
      · intro c hc
        rcases List.mem_append.mp hc with hc | hc
        · exact h2 c hc
        · simp only [List.mem_singleton] at hc
          subst hc
          simp

/-- The subcategory list after the subcategory branch touches category
`cat`. -/
def subsAfter (cat : Category) (g1 g2 : List Char) : List Subcategory :=
  if cat.subcategories.any (fun s => s.id == String.mk g1) then cat.subcategories
  else cat.subcategories ++ [{ id := String.mk g1, title := jsTrim (String.mk g2), rules := [] }]

theorem subcategoryStep_none {st : RulesParserState} {g1 g2 : List Char}
    (h : st.rulesArr[st.lastCategoryIndex]? = none) :
    subcategoryStep st g1 g2 = .error (.typeError "subcategories") := by
  simp [subcategoryStep, h]

theorem subcategoryStep_some {st : RulesParserState} {g1 g2 : List Char} {cat : Category}
    (h : st.rulesArr[st.lastCategoryIndex]? = some cat) :
    subcategoryStep st g1 g2 = .ok { st with
      rulesArr := st.rulesArr.set st.lastCategoryIndex
        { cat with subcategories := subsAfter cat g1 g2 },
      lastSubcategoryIndex := (subsAfter cat g1 g2).findIdx (fun s => s.id == String.mk g1) } := by
  simp [subcategoryStep, subsAfter, h]

/-- The id list of a category is untouched by `set`ting back an element whose
id is unchanged. -/
theorem map_id_set_same {arr : List Category} {n : Nat} {cat cat' : Category}
    (hget : arr[n]? = some cat) (hid : cat'.id = cat.id) :
    (arr.set n cat').map (fun c => c.id) = arr.map (fun c => c.id) := by
  rw [List.map_set]
  rw [hid]
  apply set_self
  rw [List.getElem?_map, hget]
  rfl

theorem subsAfter_nodup {cat : Category} {g1 g2 : List Char}
    (h : (cat.subcategories.map fun s => s.id).Nodup) :
    ((subsAfter cat g1 g2).map fun s => s.id).Nodup := by
  rw [subsAfter]
  cases hex : cat.subcategories.any (fun s => s.id == String.mk g1) with
  | true => simpa using h
  | false =>
      simp only [Bool.false_eq_true, if_false]
      have hnotmem : String.mk g1 ∉ cat.subcategories.map (fun s => s.id) := by
        intro hmem
        obtain ⟨s, hsmem, hsid⟩ := List.mem_map.mp hmem
        have := List.any_eq_false.mp hex s hsmem
        simp only [beq_iff_eq] at this
        exact this hsid
      rw [List.map_append]
      exact nodup_append_fresh h hnotmem

/-- Replacing an element by one with the same id and duplicate-free
subcategory ids preserves the invariant. -/
theorem sib_set {arr : List Category} {n : Nat} {cat cat' : Category}
    (hget : arr[n]? = some cat) (hid : cat'.id = cat.id)
    (hnd : (cat'.subcategories.map fun s => s.id).Nodup)
    (hs : SibIdsOK arr) : SibIdsOK (arr.set n cat') := by
  obtain ⟨h1, h2⟩ := hs
  constructor
  · rw [map_id_set_same hget hid]
    exact h1
  · intro c hc
    rcases List.mem_or_eq_of_mem_set hc with hc | hc
    · exact h2 c hc
    · subst hc
      exact hnd

/-- The subcategory-id list is untouched by `set`ting back a subcategory
whose id is unchanged. -/
theorem map_subid_set_same {subs : List Subcategory} {n : Nat} {s s' : Subcategory}
    (hget : subs[n]? = some s) (hid : s'.id = s.id) :
    (subs.set n s').map (fun x => x.id) = subs.map (fun x => x.id) := by
  rw [List.map_set, hid]
  apply set_self
  rw [List.getElem?_map, hget]
  rfl

/-- Modifying one subcategory of one category without changing any id
preserves the invariant. -/
theorem sib_set_rules {arr : List Category} {n : Nat} {cat : Category}
    (hget : arr[n]? = some cat) {m : Nat} {sc sc' : Subcategory}
    (hget2 : cat.subcategories[m]? = some sc) (hid2 : sc'.id = sc.id)
    (hs : SibIdsOK arr) :
    SibIdsOK (arr.set n { cat with subcategories := cat.subcategories.set m sc' }) := by
  refine sib_set hget rfl ?_ hs
  show ((cat.subcategories.set m sc').map fun s => s.id).Nodup
  rw [map_subid_set_same hget2 hid2]
  exact hs.2 cat (List.getElem?_mem hget)

theorem subcategoryStep_sib {st st' : RulesParserState} {g1 g2 : List Char}
    (h : subcategoryStep st g1 g2 = .ok st') (hs : SibIdsOK st.rulesArr) :
    SibIdsOK st'.rulesArr := by
  cases hget : st.rulesArr[st.lastCategoryIndex]? with
  | none => rw [subcategoryStep_none hget] at h; cases h
  | some cat =>
      rw [subcategoryStep_some hget] at h
      cases h
      exact sib_set hget rfl (subsAfter_nodup (hs.2 cat (List.getElem?_mem hget))) hs

theorem ruleStep_sib {st st' : RulesParserState} {g1 g2 : List Char}
    (h : ruleStep st g1 g2 = .ok st') (hs : SibIdsOK st.rulesArr) :
    SibIdsOK st'.rulesArr := by
  cases hget : st.rulesArr[st.lastCategoryIndex]? with
  | none => simp [ruleStep, hget] at h
  | some cat =>
      cases hget2 : cat.subcategories[st.lastSubcategoryIndex]? with
      | none => simp [ruleStep, hget, hget2] at h
      | some subcat =>
          have hstep := h
          simp only [ruleStep, hget, hget2] at hstep
          cases hstep
          exact sib_set_rules hget hget2 rfl hs

theorem subruleStep_sib {st st' : RulesParserState} {g1 g2 : List Char}
    (h : subruleStep st g1 g2 = .ok st') (hs : SibIdsOK st.rulesArr) :
    SibIdsOK st'.rulesArr := by
  cases hget : st.rulesArr[st.lastCategoryIndex]? with
  | none => simp [subruleStep, hget] at h
  | some cat =>
      cases hget2 : cat.subcategories[st.lastSubcategoryIndex]? with
      | none => simp [subruleStep, hget, hget2] at h
      | some subcat =>
          cases hget3 : subcat.rules[st.lastRuleIndex]? with
          | none => simp [subruleStep, hget, hget2, hget3] at h
          | some r =>
              have hstep := h
              simp only [subruleStep, hget, hget2, hget3] at hstep
              cases hstep
              exact sib_set_rules hget hget2 rfl hs

/-- One `parseRules` step preserves the sibling-id invariant. -/
theorem parseRulesStep_sib {st st' : RulesParserState} {line : String}
    (h : parseRulesStep st line = .ok st') (hs : SibIdsOK st.rulesArr) :
    SibIdsOK st'.rulesArr := by
  by_cases hl : line = ""
  · simp only [parseRulesStep, if_pos hl] at h
    cases h
    exact hs
  · simp only [parseRulesStep, if_neg hl] at h
    cases h1 : catMatch (jsTrim line).data with
    | some v =>
        obtain ⟨g1, g2⟩ := v
        rw [h1] at h
        cases h
        exact categoryStep_sib st g1 g2 hs
    | none =>
      rw [h1] at h
      cases h2 : subcatMatch (jsTrim line).data with
      | some v =>
          obtain ⟨g1, g2⟩ := v
          rw [h2] at h
          exact subcategoryStep_sib h hs
      | none =>
        rw [h2] at h
        cases h3 : ruleMatch (jsTrim line).data with
        | some v =>
            obtain ⟨g1, g2⟩ := v
            rw [h3] at h
            exact ruleStep_sib h hs
        | none =>
          rw [h3] at h
          cases h4 : subruleMatch (jsTrim line).data with
          | some v =>
              obtain ⟨g1, g2⟩ := v
              rw [h4] at h
              exact subruleStep_sib h hs
          | none =>
              rw [h4] at h
              cases h
              exact hs

/-- Whenever `parseRules` returns a tree, sibling ids at the category level
and at each category's subcategory level are pairwise distinct. -/
theorem parseRules_sib {lines : List String} {arr : List Category}
    (h : parseRules lines = .ok arr) : SibIdsOK arr := by
  unfold parseRules at h
  cases hf : lines.foldlM parseRulesStep ⟨[], 0, 0, 0⟩ with
  | error e => rw [hf] at h; cases h
  | ok st =>
      rw [hf] at h
      cases h
      exact foldlM_except_inv parseRulesStep
        (fun s a s' hstep hP => parseRulesStep_sib hstep hP)
        lines ⟨[], 0, 0, 0⟩ st (by constructor <;> simp) hf

/-! ## Invariants of `parseGlossary` -/

/-- The trimmed texts of the input lines that `parseGlossary` classifies as
term lines, in document order. -/
def glossTermLines (lines : List String) : List String :=
  lines.filterMap fun l =>
    if (jsTrim l != "") && isTermLine (jsTrim l) then some (jsTrim l) else none

/-- Every entry whose term already occurred earlier has an empty meanings
list. -/
def DupEmpty (arr : List GlossaryTerm) : Prop :=
  ∀ (i j : Nat) (a b : GlossaryTerm), i < j → arr[i]? = some a → arr[j]? = some b →
    a.term = b.term → b.meanings = []

/-- Index `n` is the first index of the array carrying its term. -/
def FirstOcc (arr : List GlossaryTerm) (n : Nat) : Prop :=
  ∀ (t : GlossaryTerm), arr[n]? = some t →
    ∀ (k : Nat) (a : GlossaryTerm), k < n → arr[k]? = some a → a.term ≠ t.term

theorem glossaryStep_term (st : GlossParserState) {line : String}
    (hne : jsTrim line ≠ "") (ht : isTermLine (jsTrim line) = true) :
    glossaryStep st line = .ok
      { termsArr := st.termsArr ++ [{ term := jsTrim line, meanings := [] }],
        lastTermIndex := (st.termsArr ++ [({ term := jsTrim line, meanings := [] } : GlossaryTerm)]).findIdx (fun (t : GlossaryTerm) => t.term == jsTrim line) } := by
  simp [glossaryStep, hne, ht]

theorem glossaryStep_cont_none (st : GlossParserState) {line : String}
    (hne : jsTrim line ≠ "") (ht : isTermLine (jsTrim line) = false)
    (hget : st.termsArr[st.lastTermIndex]? = none) :
    glossaryStep st line = .error (.typeError "meanings") := by
  simp [glossaryStep, hne, ht, hget]

theorem glossaryStep_cont (st : GlossParserState) {line : String} {t : GlossaryTerm}
    (hne : jsTrim line ≠ "") (ht : isTermLine (jsTrim line) = false)
    (hget : st.termsArr[st.lastTermIndex]? = some t) :
    glossaryStep st line = .ok
      { termsArr := st.termsArr.set st.lastTermIndex { t with meanings := t.meanings ++ [jsTrim line] },
        lastTermIndex := st.lastTermIndex } := by
  simp [glossaryStep, hne, ht, hget]

theorem getElem?_lt_length {α : Type} {l : List α} {n : Nat} {a : α}
    (h : l[n]? = some a) : n < l.length := by
  by_contra hc
  rw [List.getElem?_eq_none (Nat.le_of_not_lt hc)] at h
  cases h

/-- Appending a fresh entry with empty meanings preserves `DupEmpty`. -/
theorem dupEmpty_append {arr : List GlossaryTerm} (hd : DupEmpty arr) (x : String) :
    DupEmpty (arr ++ [{ term := x, meanings := [] }]) := by
  intro i j a b hij hi hj hab
  by_cases hjlen : j < arr.length
  · rw [List.getElem?_append_left (Nat.lt_trans hij hjlen)] at hi
    rw [List.getElem?_append_left hjlen] at hj
    exact hd i j a b hij hi hj hab
  · have hjlt := getElem?_lt_length hj
    rw [List.length_append, List.length_singleton] at hjlt
    have hj' : j = arr.length := by omega
    subst hj'
    rw [List.getElem?_concat_length] at hj
    cases hj
    rfl

/-- After pushing a term, `findIdx` points at the first occurrence of that
term. -/
theorem firstOcc_push (arr : List GlossaryTerm) (x : String) :
    FirstOcc (arr ++ [{ term := x, meanings := [] }])
      ((arr ++ [({ term := x, meanings := [] } : GlossaryTerm)]).findIdx (fun (t : GlossaryTerm) => t.term == x)) := by
  have hex : ∃ y ∈ arr ++ [{ term := x, meanings := [] }], (fun (t : GlossaryTerm) => t.term == x) y :=
    ⟨{ term := x, meanings := [] }, by simp, by simp⟩
  have hlt := List.findIdx_lt_length_of_exists hex
  obtain ⟨a', ha', hpa', hfirst⟩ := findIdx_spec _ _ hlt
  intro t ht' k a hk ha heq
  rw [ha'] at ht'
  cases ht'
  have hpk := hfirst k a hk ha
  rw [heq] at hpk
  rw [hpk] at hpa'
  cases hpa'

/-- One `parseGlossary` step preserves the duplicate/first-occurrence
invariant. -/
theorem glossaryStep_inv {st st' : GlossParserState} {line : String}
    (h : glossaryStep st line = .ok st')
    (hs : DupEmpty st.termsArr ∧ (st.termsArr = [] ∨ FirstOcc st.termsArr st.lastTermIndex)) :
    DupEmpty st'.termsArr ∧
      (st'.termsArr = [] ∨ FirstOcc st'.termsArr st'.lastTermIndex) := by
  obtain ⟨hd, hf⟩ := hs
  by_cases hb : jsTrim line = ""
  · rw [glossaryStep_blank st line hb] at h
    cases h
    exact ⟨hd, hf⟩
  · cases ht : isTermLine (jsTrim line) with
    | true =>
        rw [glossaryStep_term _ hb ht] at h
        cases h
        constructor
        · show DupEmpty (st.termsArr ++ [{ term := jsTrim line, meanings := [] }])
          exact dupEmpty_append hd (jsTrim line)
        · right
          show FirstOcc (st.termsArr ++ [{ term := jsTrim line, meanings := [] }])
            ((st.termsArr ++ [({ term := jsTrim line, meanings := [] } : GlossaryTerm)]).findIdx (fun (t : GlossaryTerm) => t.term == jsTrim line))
          exact firstOcc_push st.termsArr (jsTrim line)
    | false =>
        cases hget : st.termsArr[st.lastTermIndex]? with
        | none => rw [glossaryStep_cont_none _ hb ht hget] at h; cases h
        | some t =>
            rw [glossaryStep_cont _ hb ht hget] at h
            cases h
            have hfo : FirstOcc st.termsArr st.lastTermIndex := by
              rcases hf with hf | hf
              · rw [hf] at hget; cases hget
              · exact hf
            have hn : st.lastTermIndex < st.termsArr.length := getElem?_lt_length hget
            constructor
            · show DupEmpty (st.termsArr.set st.lastTermIndex
                { t with meanings := t.meanings ++ [jsTrim line] })
              intro i j a b hij hi hj hab
              by_cases hjn : j = st.lastTermIndex
              · subst hjn
                exfalso
                rw [List.getElem?_set_ne (by omega)] at hi
                rw [List.getElem?_set_self hn] at hj
                cases hj
                exact hfo t hget i a hij hi hab
              · rw [List.getElem?_set_ne (fun hh => hjn hh.symm)] at hj
                by_cases hin : i = st.lastTermIndex
                · subst hin
                  rw [List.getElem?_set_self hn] at hi
                  cases hi
                  exact hd st.lastTermIndex j t b hij hget hj hab
                · rw [List.getElem?_set_ne (fun hh => hin hh.symm)] at hi
                  exact hd i j a b hij hi hj hab
            · right
              show FirstOcc (st.termsArr.set st.lastTermIndex
                  { t with meanings := t.meanings ++ [jsTrim line] }) st.lastTermIndex
              intro t'' ht'' k a hk ha heq
              rw [List.getElem?_set_self hn] at ht''
              cases ht''
              rw [List.getElem?_set_ne (by omega)] at ha
              exact hfo t hget k a hk ha heq

/-- The terms of the produced array are exactly the term lines of the input,
appended to the terms already present. -/
theorem gloss_terms_map :
    ∀ (lines : List String) (arr : List GlossaryTerm) (n : Nat) (st' : GlossParserState),
      lines.foldlM glossaryStep ⟨arr, n⟩ = .ok st' →
      st'.termsArr.map (fun t => t.term) = arr.map (fun t => t.term) ++ glossTermLines lines
  | [], arr, n, st', h => by
      simp only [List.foldlM_nil] at h
      cases h
      simp [glossTermLines]
  | l :: ls, arr, n, st', h => by
      rw [List.foldlM_cons] at h
      by_cases hb : jsTrim l = ""
      · rw [glossaryStep_blank _ l hb, except_bind_ok] at h
        rw [gloss_terms_map ls arr n st' h]
        simp [glossTermLines, List.filterMap_cons, hb]
      · cases ht : isTermLine (jsTrim l) with
        | true =>
            rw [glossaryStep_term _ hb ht, except_bind_ok] at h
            rw [gloss_terms_map ls (arr ++ [{ term := jsTrim l, meanings := [] }]) _ st' h]
            simp [glossTermLines, List.filterMap_cons, hb, ht]
        | false =>
            cases hget : (⟨arr, n⟩ : GlossParserState).termsArr[(⟨arr, n⟩ : GlossParserState).lastTermIndex]? with
            | none =>
                rw [glossaryStep_cont_none _ hb ht hget, except_bind_error] at h
                cases h
            | some t =>
                rw [glossaryStep_cont _ hb ht hget, except_bind_ok] at h
                rw [gloss_terms_map ls (arr.set n { t with meanings := t.meanings ++ [jsTrim l] }) n st' h]
                have hmap : (arr.set n { t with meanings := t.meanings ++ [jsTrim l] }).map
                    (fun x => x.term) = arr.map (fun x => x.term) := by
                  rw [List.map_set]
                  apply set_self
                  rw [List.getElem?_map]
                  rw [show arr[n]? = some t from hget]
                  rfl
                rw [hmap]
                simp [glossTermLines, List.filterMap_cons, hb, ht]

/-! ## Counting and missing-anchor helpers -/

/-- A duplicate-free projection bounds the number of elements that project to
any given value by one. -/
theorem countP_le_one_of_nodup_map {α : Type} (f : α → String) :
    ∀ (l : List α), (l.map f).Nodup → ∀ (y : String), l.countP (fun x => f x == y) ≤ 1
  | [], _, y => by simp
  | a :: l, h, y => by
      rw [List.map_cons, List.nodup_cons] at h
      obtain ⟨hna, hnd⟩ := h
      rw [List.countP_cons]
      by_cases hy : f a = y
      · have hz : l.countP (fun x => f x == y) = 0 := by
          rw [List.countP_eq_zero]
          intro b hb
          simp only [beq_iff_eq]
          intro hfb
          exact hna (by rw [hy, ← hfb]; exact List.mem_map_of_mem f hb)
        simp [hz, hy]
      · have hle := countP_le_one_of_nodup_map f l hnd y
        have : (f a == y) = false := by simp [hy]
        simp [this]
        omega

theorem findIdx?_none_of_all {l : List String} {x : String} (h : ∀ a ∈ l, a ≠ x) :
    l.findIdx? (fun a => a = x) = none := by
  rw [List.findIdx?_eq_none_iff]
  intro a ha
  simp [h a ha]

theorem jsIndexOfFrom_none {l : List String} {x : String} (fromIdx : Int)
    (h : ∀ a ∈ l, a ≠ x) : jsIndexOfFrom l x fromIdx = -1 := by
  have hk : ∀ (k : Nat), (l.drop k).findIdx? (fun a => a = x) = none := fun k =>
    findIdx?_none_of_all (fun a ha => h a (List.mem_of_mem_drop ha))
  simp only [jsIndexOfFrom]
  rw [hk]

/-! ## Claim theorems -/

/-- C9: for every input line at most one of the four classification patterns
(category, subcategory, rule, subrule) matches, so the fixed first-match-wins
priority order assigns each line the same level that testing the patterns in
any other order (here: the fully reversed order) would. -/
theorem patterns_exclusive (cs : List Char) :
    matchCount cs ≤ 1 ∧ classify cs = classifyRev cs := by
  cases h1 : catMatch cs with
  | some v =>
      obtain ⟨hs, hr, hsr⟩ := catMatch_excl h1
      constructor
      · simp [matchCount, h1, hs, hr, hsr]
      · simp [classify, classifyRev, h1, hs, hr, hsr]
  | none =>
    cases h2 : subcatMatch cs with
    | some v =>
        obtain ⟨hr, hsr⟩ := subcatMatch_excl h2
        constructor
        · simp [matchCount, h1, h2, hr, hsr]
        · simp [classify, classifyRev, h1, h2, hr, hsr]
    | none =>
      cases h3 : ruleMatch cs with
      | some v =>
          have hsr := ruleMatch_excl h3
          constructor
          · simp [matchCount, h1, h2, h3, hsr]
          · simp [classify, classifyRev, h1, h2, h3, hsr]
      | none =>
        cases h4 : subruleMatch cs with
        | some v =>
            constructor
            · simp [matchCount, h1, h2, h3, h4]
            · simp [classify, classifyRev, h1, h2, h3, h4]
        | none =>
            constructor
            · simp [matchCount, h1, h2, h3, h4]
            · simp [classify, classifyRev, h1, h2, h3, h4]

/-- C2 (counterexample): the orphan rule line `100.1. Some rule text.` makes
`parseRules` throw the `TypeError` for reading `subcategories` of
`undefined`, and that error's message does not contain the orphan line, so
the error does not identify it. -/
theorem orphan_error_lacks_line_info :
    parseRules ["100.1. Some rule text."] = .error (.typeError "subcategories") ∧
    containsSub (jsErrorText (.typeError "subcategories")).data
      "100.1. Some rule text.".data = false := by
  exact ⟨rfl, by decide⟩

/-- C2 (amended): a subcategory, rule, or subrule line appearing after only
blank or unclassified lines makes `parseRules` throw a `TypeError` (reading
`subcategories` of `undefined`), and a glossary continuation line appearing
after only blank lines makes `parseGlossary` throw a `TypeError` (reading
`meanings` of `undefined`): the orphan line is neither silently dropped nor
attached to a wrong parent, but the error names only the accessed property,
not the orphan line or its expected ancestor level. -/
theorem orphan_line_raises_typeError :
    (∀ (pre : List String) (l : String) (post : List String),
       (∀ p ∈ pre, p = "" ∨ classify (jsTrim p).data = none) → l ≠ "" →
       (classify (jsTrim l).data = some .subcategory ∨
        classify (jsTrim l).data = some .rule ∨
        classify (jsTrim l).data = some .subrule) →
       parseRules (pre ++ l :: post) = .error (.typeError "subcategories")) ∧
    (∀ (pre : List String) (l : String) (post : List String),
       (∀ p ∈ pre, jsTrim p = "") → jsTrim l ≠ "" → isTermLine (jsTrim l) = false →
       parseGlossary (pre ++ l :: post) = .error (.typeError "meanings")) := by
  constructor
  · intro pre l post hpre hl hcl
    unfold parseRules
    rw [foldlM_skip parseRulesStep _ pre (l :: post)
      (fun p hp => parseRulesStep_noise _ p (hpre p hp))]
    rw [List.foldlM_cons, parseRulesStep_orphan _ l rfl hl hcl, except_bind_error]
    rfl
  · intro pre l post hpre hl hterm
    unfold parseGlossary
    rw [foldlM_skip glossaryStep _ pre (l :: post)
      (fun p hp => glossaryStep_blank _ p (hpre p hp))]
    rw [List.foldlM_cons, glossaryStep_orphan _ l rfl hl hterm, except_bind_error]
    rfl

/-- C2 (witness): the amended theorem applied to concrete orphan inputs. -/
theorem orphan_line_raises_typeError_witness :
    parseRules ["", "100.1a Orphan text"] = .error (.typeError "subcategories") ∧
    parseGlossary ["", "Orphan meaning."] = .error (.typeError "meanings") :=
  ⟨orphan_line_raises_typeError.1 [""] "100.1a Orphan text" []
      (by decide) (by decide) (by decide),
   orphan_line_raises_typeError.2 [""] "Orphan meaning." []
      (by decide) (by decide) (by decide)⟩

/-- C3 (counterexample): a document with no line equal to `Credits` does not
make `getRules` fail or return an empty result: `findIndex` yields `-1`, the
start index becomes `1`, and the whole document except its first line is
parsed, here into a non-empty tree. -/
theorem getRules_missing_anchor_parses :
    ((splitCR "X\r1. Game Concepts").all (fun l => l != "Credits")) = true ∧
    getRules "X\r1. Game Concepts" = .ok [⟨"1", "Game Concepts", []⟩] ∧
    getRules "X\r1. Game Concepts" ≠ .ok [] := by
  refine ⟨by decide, rfl, by decide⟩

/-- C3 (amended): when the anchors are absent the extractors do not fail:
with no `Credits` line, `getRules` parses every line but the first; with
neither a `\nGlossary` nor a `\nCredits` line, `getGlossary` parses every
line but the last (the final `splice(-1, …)` removes the last element). -/
theorem anchors_absent_behavior :
    (∀ (text : String), (∀ l ∈ splitCR text, l ≠ "Credits") →
       getRules text = parseRules ((splitCR text).drop 1)) ∧
    (∀ (text : String), (∀ l ∈ splitCR text, l ≠ "\nGlossary") →
       (∀ l ∈ splitCR text, l ≠ "\nCredits") →
       getGlossary text = parseGlossary ((splitCR text).dropLast)) := by
  constructor
  · intro text h
    simp only [getRules, jsFindIndex, findIdx?_none_of_all h]
    rfl
  · intro text hg hc
    have h3 : jsIndexOf (splitCR text) "\nCredits" = -1 := jsIndexOfFrom_none 0 hc
    simp only [getGlossary]
    rw [show jsIndexOf (splitCR text) "\nGlossary" = -1 from jsIndexOfFrom_none 0 hg]
    rw [jsIndexOfFrom_none (-1) hg]
    norm_num [h3, spliceToEnd]

/-- C3 (witness): the amended theorem applied to a two-line document without
any anchor line. -/
theorem anchors_absent_behavior_witness :
    getRules "a\rb" = parseRules ((splitCR "a\rb").drop 1) ∧
    getGlossary "a\rb" = parseGlossary ((splitCR "a\rb").dropLast) :=
  ⟨anchors_absent_behavior.1 "a\rb" (by decide),
   anchors_absent_behavior.2 "a\rb" (by decide) (by decide)⟩

/-- C4 (counterexample): subcategory dedup is scoped to the current category,
not global: the same subcategory header fed twice under two different current
categories yields TWO subcategory entities with id `100`, the second
occurrence creating a new branch in the other category. -/
theorem subcategory_dedup_not_global :
    parseRules ["1. Game", "100. General", "2. Other", "100. General"] =
      .ok [⟨"1", "Game", [⟨"100", "General", []⟩]⟩,
           ⟨"2", "Other", [⟨"100", "General", []⟩]⟩] ∧
    ([⟨"1", "Game", [⟨"100", "General", []⟩]⟩,
      ⟨"2", "Other", [⟨"100", "General", []⟩]⟩] : List Category).countP
        (fun c => c.subcategories.any (fun s => s.id == "100")) = 2 := by
  exact ⟨rfl, by decide⟩

/-- C4 (amended): feeding the same category header twice produces exactly one
category with that id (dedup is global over the category list), and feeding
the same subcategory header twice while the same category is current produces
exactly one subcategory with that id inside that category (dedup is scoped
per category); lines following a duplicate header attach to the existing
entity found by id lookup, as the concrete run shows: the repeated `1. Game`
re-targets the existing category, the repeated `100. General` re-targets the
existing subcategory, and the following rule lands inside it. -/
theorem duplicate_headers_dedup :
    (∀ (lines : List String) (arr : List Category) (id' : String),
       parseRules lines = .ok arr →
       arr.countP (fun c => c.id == id') ≤ 1 ∧
       ∀ c ∈ arr, ∀ (sid : String), c.subcategories.countP (fun s => s.id == sid) ≤ 1) ∧
    parseRules ["1. Game", "100. General", "1. Game", "101. Other",
                "100. General", "100.1. X."] =
      .ok [⟨"1", "Game", [⟨"100", "General", [⟨"100.1", "X.", []⟩]⟩,
                          ⟨"101", "Other", []⟩]⟩] := by
  constructor
  · intro lines arr id' h
    obtain ⟨h1, h2⟩ := parseRules_sib h
    exact ⟨countP_le_one_of_nodup_map _ arr h1 id',
      fun c hc sid => countP_le_one_of_nodup_map _ c.subcategories (h2 c hc) sid⟩
  · rfl

/-- C4 (witness): the general part applied to a run that feeds the category
header `1. Game` twice. -/
theorem duplicate_headers_dedup_witness :
    ([⟨"1", "Game", []⟩] : List Category).countP (fun c => c.id == "1") ≤ 1 ∧
    ∀ c ∈ ([⟨"1", "Game", []⟩] : List Category), ∀ (sid : String),
      c.subcategories.countP (fun s => s.id == sid) ≤ 1 :=
  duplicate_headers_dedup.1 ["1. Game", "1. Game"] [⟨"1", "Game", []⟩] "1" (by rfl)

/-- C5 (counterexample): a run of exclusively well-formed lines in which a
duplicate category header resets the category cursor while the subcategory
cursor stays stale: the two copies of rule `100.1` attach under subcategory
`101` although the most recently classified subcategory line was `301`, and
the sibling list of rules under `101` carries the same id twice. -/
theorem stale_cursor_misattaches :
    parseRules ["1. Aa", "100. Bb", "101. Cc", "2. Dd", "300. Ee", "301. Ff",
                "1. Aa", "100.1. X.", "100.1. X."] =
      .ok [⟨"1", "Aa", [⟨"100", "Bb", []⟩,
                        ⟨"101", "Cc", [⟨"100.1", "X.", []⟩, ⟨"100.1", "X.", []⟩]⟩]⟩,
           ⟨"2", "Dd", [⟨"300", "Ee", []⟩, ⟨"301", "Ff", []⟩]⟩] ∧
    ¬ ((⟨"101", "Cc", [⟨"100.1", "X.", []⟩, ⟨"100.1", "X.", []⟩]⟩ : Subcategory).rules.map
        (fun r => r.id)).Nodup := by
  exact ⟨rfl, by decide⟩

/-- C5 (amended): whenever `parseRules` returns a tree, ids are pairwise
distinct within the category list and within each category's subcategory
list; rule and subrule lines are appended unconditionally, so their sibling
ids can repeat, and after a duplicate category header the stale subcategory
cursor can attach a rule under a subcategory other than the most recently
classified one. -/
theorem parseRules_sibling_ids :
    ∀ (lines : List String) (arr : List Category), parseRules lines = .ok arr →
      (arr.map fun c => c.id).Nodup ∧
      ∀ c ∈ arr, (c.subcategories.map fun s => s.id).Nodup :=
  fun _ _ h => parseRules_sib h

/-- C5 (witness): the amended theorem applied to a concrete run. -/
theorem parseRules_sibling_ids_witness :
    (([⟨"1", "Game", []⟩] : List Category).map fun c => c.id).Nodup ∧
    ∀ c ∈ ([⟨"1", "Game", []⟩] : List Category),
      (c.subcategories.map fun s => s.id).Nodup :=
  parseRules_sibling_ids ["1. Game"] [⟨"1", "Game", []⟩] (by rfl)

/-- C1: `getGlossary` on a document whose two `\nGlossary` lines delimit a
table of contents entry and the body heading.  The second `indexOf` searches
from the index of the first occurrence *inclusively*, so it finds the first
occurrence again: the parsed range starts right after the FIRST `\nGlossary`
and therefore still contains the table-of-contents line `X` and the second
heading itself, instead of only the body line between the second heading and
the credits marker. -/
theorem getGlossary_uses_first_heading :
    getGlossary "\nGlossary\rX\r\nGlossary\rBody line\r\nCredits" =
      .ok [⟨"X", []⟩, ⟨"Glossary", []⟩, ⟨"Body line", []⟩] ∧
    parseGlossary ["Body line"] = .ok [⟨"Body line", []⟩] ∧
    getGlossary "\nGlossary\rX\r\nGlossary\rBody line\r\nCredits" ≠
      parseGlossary ["Body line"] := by
  refine ⟨rfl, rfl, by decide⟩

/-- The spec's wording of the glossary classification rule: a trimmed
non-blank line is a new term exactly when it does not end with a period, does
not end with a closing typographic quotation mark, and does not contain the
substring `See rule`.  Stated from the spec to compare against the code's
`isTermLine`. -/
def specNewTerm (l : String) : Prop :=
  endsWithL l.data ".".data = false ∧ endsWithL l.data "”".data = false ∧
    containsSub l.data "See rule".data = false

instance (l : String) : Decidable (specNewTerm l) := by
  unfold specNewTerm
  infer_instance

theorem isTermLine_iff_spec (l : String) : isTermLine l = true ↔ specNewTerm l := by
  simp [isTermLine, specNewTerm, Bool.and_eq_true, and_assoc]

theorem isTermLine_false_of_not_spec {l : String} (h : ¬ specNewTerm l) :
    isTermLine l = false := by
  cases hh : isTermLine l
  · rfl
  · exact absurd ((isTermLine_iff_spec l).mp hh) h

/-- C6: a trimmed non-blank glossary line is classified as a new term exactly
under the spec's three conditions (it then starts a fresh `GlossaryTerm` with
empty meanings and the cursor moves to the first entry with that text); every
other trimmed non-blank line is appended to the current term's meanings.
Consequently a term line followed by two continuation-looking lines and a
period-terminated line yields one `GlossaryTerm` with exactly those three
meanings in document order. -/
theorem glossary_classification :
    (∀ (st : GlossParserState) (l : String), jsTrim l ≠ "" →
       (specNewTerm (jsTrim l) →
         glossaryStep st l = .ok
           { termsArr := st.termsArr ++ [{ term := jsTrim l, meanings := [] }],
             lastTermIndex := (st.termsArr ++ [({ term := jsTrim l, meanings := [] } : GlossaryTerm)]).findIdx (fun (t : GlossaryTerm) => t.term == jsTrim l) }) ∧
       (¬ specNewTerm (jsTrim l) → ∀ (t : GlossaryTerm),
         st.termsArr[st.lastTermIndex]? = some t →
         glossaryStep st l = .ok
           { termsArr := st.termsArr.set st.lastTermIndex { t with meanings := t.meanings ++ [jsTrim l] },
             lastTermIndex := st.lastTermIndex })) ∧
    (∀ (t m1 m2 m3 : String), jsTrim t ≠ "" → specNewTerm (jsTrim t) →
       jsTrim m1 ≠ "" → ¬ specNewTerm (jsTrim m1) →
       jsTrim m2 ≠ "" → ¬ specNewTerm (jsTrim m2) →
       jsTrim m3 ≠ "" → endsWithL (jsTrim m3).data ".".data = true →
       parseGlossary [t, m1, m2, m3] =
         .ok [{ term := jsTrim t, meanings := [jsTrim m1, jsTrim m2, jsTrim m3] }]) := by
  constructor
  · intro st l hne
    constructor
    · intro hsp
      exact glossaryStep_term st hne ((isTermLine_iff_spec _).mpr hsp)
    · intro hsp t hget
      exact glossaryStep_cont st hne (isTermLine_false_of_not_spec hsp) hget
  · intro t m1 m2 m3 htne hts hm1ne hm1 hm2ne hm2 hm3ne hm3
    have ht' : isTermLine (jsTrim t) = true := (isTermLine_iff_spec _).mpr hts
    have hm1f : isTermLine (jsTrim m1) = false := isTermLine_false_of_not_spec hm1
    have hm2f : isTermLine (jsTrim m2) = false := isTermLine_false_of_not_spec hm2
    have hm3f : isTermLine (jsTrim m3) = false := by
      simp [isTermLine, hm3]
    have e1 : glossaryStep ⟨[], 0⟩ t =
        .ok ⟨[{ term := jsTrim t, meanings := [] }], 0⟩ := by
      simp [glossaryStep, htne, ht', List.findIdx_cons]
    have e2 : glossaryStep ⟨[{ term := jsTrim t, meanings := [] }], 0⟩ m1 =
        .ok ⟨[{ term := jsTrim t, meanings := [jsTrim m1] }], 0⟩ := by
      simp [glossaryStep, hm1ne, hm1f]
    have e3 : glossaryStep ⟨[{ term := jsTrim t, meanings := [jsTrim m1] }], 0⟩ m2 =
        .ok ⟨[{ term := jsTrim t, meanings := [jsTrim m1, jsTrim m2] }], 0⟩ := by
      simp [glossaryStep, hm2ne, hm2f]
    have e4 : glossaryStep ⟨[{ term := jsTrim t, meanings := [jsTrim m1, jsTrim m2] }], 0⟩ m3 =
        .ok ⟨[{ term := jsTrim t, meanings := [jsTrim m1, jsTrim m2, jsTrim m3] }], 0⟩ := by
      simp [glossaryStep, hm3ne, hm3f]
    unfold parseGlossary
    rw [List.foldlM_cons, e1, except_bind_ok, List.foldlM_cons, e2, except_bind_ok,
      List.foldlM_cons, e3, except_bind_ok, List.foldlM_cons, e4, except_bind_ok,
      List.foldlM_nil]
    rfl

/-- C6 (witness): the grouping scenario on concrete lines — the middle lines
end with a typographic quote and contain `See rule`, the final line ends with
a period. -/
theorem glossary_classification_witness :
    parseGlossary ["Abandon", "One, see “Example”", "Contains See rule text",
                   "Final sentence."] =
      .ok [{ term := "Abandon",
             meanings := ["One, see “Example”", "Contains See rule text", "Final sentence."] }] :=
  glossary_classification.2 "Abandon" "One, see “Example”" "Contains See rule text"
    "Final sentence." (by decide) (by decide) (by decide) (by decide) (by decide)
    (by decide) (by decide) (by decide)

/-- C7: if the third carriage-return-separated line of the document is the
literal effective-date sentence for November 8, 2024, then `getEffectiveDate`
returns the millisecond epoch timestamp of 2024-11-08 at midnight UTC. -/
theorem effectiveDate_third_line (doc : String)
    (h : (splitCR doc)[2]? = some "These rules are effective as of November 8, 2024.") :
    getEffectiveDate doc = .ok (some 1731024000000) := by
  unfold getEffectiveDate
  rw [h]
  rfl

/-- C7 (witness). -/
theorem effectiveDate_third_line_witness :
    getEffectiveDate "Magic: The Gathering Comprehensive Rules\r\rThese rules are effective as of November 8, 2024.\r\rIntroduction" =
      .ok (some 1731024000000) :=
  effectiveDate_third_line _ (by rfl)

/-- C8: when the effective-date extractor yields no date the composition
produces no document (either `undefined` or a propagated thrown error), and a
`RulesObject` is produced only together with a determined (and truthy)
effective date. -/
theorem composition_requires_date :
    (∀ (text : String), getEffectiveDate text = .ok none →
       getRulesObjectOf text = .ok none ∨ ∃ e, getRulesObjectOf text = .error e) ∧
    (∀ (text : String) (obj : RulesObject), getRulesObjectOf text = .ok (some obj) →
       getEffectiveDate text = .ok (some obj.effectiveDate) ∧ obj.effectiveDate ≠ 0) := by
  constructor
  · intro text hd
    unfold getRulesObjectOf
    by_cases ht : text = ""
    · left
      rw [if_pos ht]
    · rw [if_neg ht]
      cases hr : getRules text with
      | error e => exact Or.inr ⟨e, rfl⟩
      | ok rules =>
        cases hg : getGlossary text with
        | error e => exact Or.inr ⟨e, rfl⟩
        | ok glossary =>
            rw [hd]
            exact Or.inl rfl
  · intro text obj h
    unfold getRulesObjectOf at h
    by_cases ht : text = ""
    · rw [if_pos ht] at h
      cases h
    · rw [if_neg ht] at h
      cases hr : getRules text with
      | error e => simp only [hr] at h; cases h
      | ok rules =>
        cases hg : getGlossary text with
        | error e => simp only [hr, hg] at h; cases h
        | ok glossary =>
          cases hd : getEffectiveDate text with
          | error e => simp only [hr, hg, hd] at h; cases h
          | ok eff =>
            cases eff with
            | none => simp only [hr, hg, hd] at h; cases h
            | some v =>
                simp only [hr, hg, hd] at h
                by_cases hv : v = 0
                · rw [if_pos hv] at h
                  cases h
                · rw [if_neg hv] at h
                  cases h
                  exact ⟨rfl, hv⟩

/-- C8 (witness): a document with no effective-date line composes to no
document. -/
theorem composition_requires_date_witness :
    getRulesObjectOf "a\rb\rc" = .ok none ∨
      ∃ e, getRulesObjectOf "a\rb\rc" = .error e :=
  composition_requires_date.1 "a\rb\rc" (by rfl)

/-- C10: every term line appends its own `GlossaryTerm` (terms are not
deduplicated — the produced term list equals the list of classified term
lines, duplicates included), while the cursor always points at the FIRST
entry carrying a given text, so every entry whose term already occurred
earlier keeps an empty meanings list; continuation lines after a duplicate
term line land on the first occurrence, as the concrete run shows. -/
theorem glossary_duplicate_terms :
    (∀ (lines : List String) (arr : List GlossaryTerm), parseGlossary lines = .ok arr →
       arr.map (fun t => t.term) = glossTermLines lines ∧ DupEmpty arr) ∧
    parseGlossary ["T", "M one.", "T", "M two."] =
      .ok [⟨"T", ["M one.", "M two."]⟩, ⟨"T", []⟩] := by
  constructor
  · intro lines arr h
    unfold parseGlossary at h
    cases hf : lines.foldlM glossaryStep ⟨[], 0⟩ with
    | error e => rw [hf] at h; cases h
    | ok st =>
        rw [hf] at h
        cases h
        constructor
        · simpa using gloss_terms_map lines [] 0 st hf
        · have hinit : DupEmpty ([] : List GlossaryTerm) ∧
              (([] : List GlossaryTerm) = [] ∨ FirstOcc [] 0) := by
            constructor
            · intro i j a b hij hi hj hab
              simp at hi
            · exact Or.inl rfl
          exact (foldlM_except_inv glossaryStep
            (fun s a s' hstep hP => glossaryStep_inv hstep hP)
            lines ⟨[], 0⟩ st hinit hf).1
  · rfl

/-- C10 (witness): the general part applied to a single term line. -/
theorem glossary_duplicate_terms_witness :
    ([({ term := "T", meanings := [] } : GlossaryTerm)].map (fun t => t.term) =
      glossTermLines ["T"]) ∧
    DupEmpty [({ term := "T", meanings := [] } : GlossaryTerm)] :=
  glossary_duplicate_terms.1 ["T"] [{ term := "T", meanings := [] }] (by rfl)

end MTGRules
